import Mathlib

/-!
Verification of the pdf-buddy ingestion and retrieval pipeline.

Strings from the JavaScript source are modelled as `List Char`; machine
integers as `Nat`; fallible operations as `Option`; the external
embedding and PDF-parsing services as oracle values carried in an
environment record.  Each definition is translated from the source files
of the repository (the Express server and the BullMQ worker).
-/

/-- Model of JavaScript `String.prototype.trim` left half:
drop leading whitespace. -/
def trimLeft (l : List Char) : List Char := l.dropWhile Char.isWhitespace

/-- Model of JavaScript `String.prototype.trim` right half:
drop trailing whitespace. -/
def trimRight (l : List Char) : List Char :=
  (l.reverse.dropWhile Char.isWhitespace).reverse

/-- Model of JavaScript `String.prototype.trim`. -/
def trim (l : List Char) : List Char := trimRight (trimLeft l)

/-- Model of JavaScript `split('\n')`: cut the character list at every
newline; `n` separators produce `n + 1` (possibly empty) pieces. -/
def splitNl : List Char → List (List Char)
  | [] => [[]]
  | c :: rest =>
    match splitNl rest with
    | [] => [[]]
    | h :: t => if c = '\n' then [] :: h :: t else (c :: h) :: t

/-- Model of JavaScript `hay.indexOf(needle)` for strings: the least
index at which `needle` occurs as a contiguous substring of `hay`,
`none` when it does not occur. -/
def idxOfSub : List Char → List Char → Option Nat
  | [], needle => if needle.isPrefixOf ([] : List Char) then some 0 else none
  | c :: rest, needle =>
    if needle.isPrefixOf (c :: rest) then some 0
    else (idxOfSub rest needle).map (· + 1)

/-- Model of JavaScript `hay.includes(needle)`. -/
def containsSub (hay needle : List Char) : Bool := (idxOfSub hay needle).isSome

/-- Decimal digit run to a number, as JavaScript `parseInt` on a digit
string. -/
def digitsToNat (ds : List Char) : Nat :=
  ds.foldl (fun n c => n * 10 + (c.toNat - 48)) 0

/-- Attempt to match the regex `\[Page (\d+)\]` at the head of the list:
the literal `[Page ` prefix, a maximal non-empty digit run, then `]`. -/
def pageAt (s : List Char) : Option Nat :=
  if ("[Page ").toList.isPrefixOf s then
    let rest := s.drop 6
    let ds := rest.takeWhile Char.isDigit
    if ds = [] then none
    else if (rest.drop ds.length).head? = some ']' then some (digitsToNat ds)
    else none
  else none

/-- Model of the server's `extractPageNumberFromContext`: first match of
`/\[Page (\d+)\]/` scanning left to right, parsed as a number. -/
def extractPageNumberFromContext : List Char → Option Nat
  | [] => none
  | c :: rest =>
    match pageAt (c :: rest) with
    | some n => some n
    | none => extractPageNumberFromContext rest

/-- The worker's `extractPageReference` has the identical body. -/
def extractPageReference (chunk : List Char) : Option Nat :=
  extractPageNumberFromContext chunk

/-! ## Chunker (worker job handler, chunking loop) -/

/-- Worker constant `const chunkSize = 1000`. -/
def chunkSize : Nat := 1000

/-- Worker constant `const overlap = 200`. -/
def overlap : Nat := 200

/-- Body of the chunking loop
`for (let i = 0; i < L; i += chunkSize - overlap)`, given the list of
loop indices still to visit and the number of chunks pushed so far.
Each window is `text.substring(i, i + chunkSize)`; it is pushed when it
is non-empty after trimming, and the loop breaks as soon as 50 chunks
have been pushed.  The offset `i` is recorded with each pushed chunk. -/
def chunkLoop (text : List Char) : List Nat → Nat → List (Nat × List Char)
  | [], _ => []
  | i :: rest, cnt =>
    let chunk := (text.drop i).take chunkSize
    if 0 < (trim chunk).length then
      if 50 ≤ cnt + 1 then [(i, chunk)]
      else (i, chunk) :: chunkLoop text rest (cnt + 1)
    else
      if 50 ≤ cnt then [] else chunkLoop text rest cnt

/-- Number of indices visited by `for (let i = 0; i < len; i += step)`
with `step = chunkSize - overlap`: the i-values are `0, step, 2*step, …`
strictly below `len`, hence `⌈len / step⌉` of them. -/
def chunkIter (len : Nat) : Nat :=
  (len + (chunkSize - overlap) - 1) / (chunkSize - overlap)

/-- Model of the worker's chunking block: if the extracted text is longer
than `chunkSize`, slide the window (the loop indices are exactly
`List.range' 0 (chunkIter len) (chunkSize - overlap)`); otherwise push the
whole text as the single chunk.  Each chunk is paired with its source
start offset. -/
def chunkText (text : List Char) : List (Nat × List Char) :=
  if chunkSize < text.length then
    chunkLoop text (List.range' 0 (chunkIter text.length) (chunkSize - overlap)) 0
  else [(0, text)]

/-! ## Text extraction (worker `extractPDFText`) -/

/-- Marker prepended by the fallback branch of `extractPDFText`:
the template literal `[PDF Extraction Failed - Using Fallback]\n`. -/
def fallbackMark : List Char := ("[PDF Extraction Failed - Using Fallback]\n").toList

/-- Model of the fallback branch of `extractPDFText`: decode the first
`Math.min(10000, length)` bytes of the raw buffer as text (bytes are
modelled one character per byte), split on newlines, keep lines that are
non-empty after trimming and contain neither `%PDF` nor `xref`, keep the
first 50 of those joined with newlines, and succeed with the marker
prefixed exactly when the joined text is longer than 100 characters. -/
def pdfFallback (fileBuffer : List Char) : Option (List Char) :=
  let bufferString := fileBuffer.take (min 10000 fileBuffer.length)
  let lines := List.intercalate ['\n']
    (((splitNl bufferString).filter fun line =>
        0 < (trim line).length
          && !containsSub line (("%PDF").toList)
          && !containsSub line (("xref").toList)).take 50)
  if 100 < lines.length then some (fallbackMark ++ lines) else none

/-- Model of the worker's `extractPDFText`.  The pdf.js page loop is an
oracle `lib`: `some fullText` is the page-tagged text it accumulates,
`none` means the library call throws.  On a successful library run the
result is the trimmed text, but a zero-length trimmed text throws and is
caught by the same `catch` that runs the buffer fallback; a throwing
library run goes to the fallback directly.  `none` overall means
`extractPDFText` throws to its caller. -/
def extractPDFText (fileBuffer : List Char) (lib : Option (List Char)) :
    Option (List Char) :=
  match lib with
  | some fullText =>
    let text := trim fullText
    if text.length = 0 then pdfFallback fileBuffer else some text
  | none => pdfFallback fileBuffer

/-- Placeholder text the worker substitutes when `extractPDFText`
throws. -/
def placeholderText (fileName : List Char) : List Char :=
  ("PDF: ").toList ++ fileName ++
    ("\n\nNote: Text extraction partially failed. Some PDFs with complex formatting or images may not extract all text.\n\nTry asking questions about the PDF content anyway.").toList

/-! ## Embedding generation (worker embedding loop) -/

/-- One chunk successfully embedded, as pushed onto
`chunksWithEmbeddings`. -/
structure ChunkEmbedding where
  jobId : Nat
  chunkIndex : Nat
  content : List Char
  embedding : List Int
  pageRef : Option Nat
  deriving DecidableEq

/-- Body of the embedding loop over the given list of chunk indices.
Returns the successfully embedded chunks in processing order together
with the trace of `(index, chunk)` pairs on which the external embedding
call was actually attempted.  A chunk shorter than 20 characters is
skipped without an attempt; a failing call (`embed` returns `none`) is
attempted but contributes no embedding. -/
def genEmbList (embed : List Char → Option (List Int)) (jobId : Nat)
    (chunks : List (List Char)) :
    List Nat → List ChunkEmbedding × List (Nat × List Char)
  | [] => ([], [])
  | i :: rest =>
    let prev := genEmbList embed jobId chunks rest
    match chunks.get? i with
    | none => prev
    | some chunk =>
      if chunk.length < 20 then prev
      else
        match embed chunk with
        | none => (prev.1, (i, chunk) :: prev.2)
        | some v =>
          (⟨jobId, i, chunk, v, extractPageReference chunk⟩ :: prev.1,
            (i, chunk) :: prev.2)

/-- Model of the worker's embedding loop:
`const chunksToProcess = Math.min(chunks.length, 10)` followed by
`for (let i = 0; i < chunksToProcess; i++)`. -/
def generateEmbeddings (embed : List Char → Option (List Int)) (jobId : Nat)
    (chunks : List (List Char)) :
    List ChunkEmbedding × List (Nat × List Char) :=
  genEmbList embed jobId chunks (List.range (min chunks.length 10))

/-! ## Worker job handler -/

/-- Environment of one ingestion job: the filesystem and the external
services it consults.  `fileExists` is the outcome of `fs.access`,
`fileBuffer` the bytes read from the upload path, `libExtract` the
pdf.js oracle (`none` = the library throws), `embed` the external
embedding service (`none` = the call throws), and `accessErrMsg` the
message of the error `fs.access` throws when the file is missing. -/
structure WorkerEnv where
  fileExists : Bool
  fileBuffer : List Char
  libExtract : Option (List Char)
  embed : List Char → Option (List Int)
  fileName : List Char
  jobId : Nat
  timestamp : Nat
  accessErrMsg : List Char

/-- Sanitisation `fileName.replace(/[^a-zA-Z0-9.-]/g, '_')`. -/
def sanitizeName (fileName : List Char) : List Char :=
  fileName.map fun c => if c.isAlphanum || c = '.' || c = '-' then c else '_'

/-- Storage directory name of a successful job:
`${safeName}_${job.id}_${timestamp}` with the sanitised name truncated to
100 characters. -/
def savePathName (fileName : List Char) (jobId timestamp : Nat) : List Char :=
  (sanitizeName fileName).take 100 ++ '_' :: Nat.toDigits 10 jobId
    ++ '_' :: Nat.toDigits 10 timestamp

/-- Everything a completed job persists in its storage directory,
including the `metadata.json` fields the claims mention. -/
structure DocRecord where
  id : List Char
  fileName : List Char
  extractedText : List Char
  chunks : List (List Char)
  embeddings : List ChunkEmbedding
  extractionSuccess : Bool
  files : List (List Char)
  deriving DecidableEq

/-- Error record written on fatal failure: the directory name carries the
`error_` prefix and `error.json` holds the message and the job id. -/
structure ErrorRecord where
  dirName : List Char
  jobId : Nat
  message : List Char
  deriving DecidableEq

/-- Outcome of the worker job handler: `completed` returns normally with
a persisted document record, `failed` has written an error record and
rethrown the error to the queue. -/
inductive JobOutcome where
  | completed (rec : DocRecord)
  | failed (er : ErrorRecord)
  deriving DecidableEq

/-- Model of the worker job handler.  `fs.access` failing is the only
fatal error: it is caught by the outer `catch`, which writes the error
record and rethrows.  Otherwise extraction (with placeholder
substitution), chunking, embedding and persistence all run to
completion. -/
def processJob (env : WorkerEnv) : JobOutcome :=
  if env.fileExists then
    let extRes := extractPDFText env.fileBuffer env.libExtract
    let extractedText :=
      match extRes with
      | some t => t
      | none => placeholderText env.fileName
    let extractionSuccess :=
      match extRes with
      | some _ => true
      | none => false
    let chunks := (chunkText extractedText).map Prod.snd
    let embs := (generateEmbeddings env.embed env.jobId chunks).1
    JobOutcome.completed
      { id := savePathName env.fileName env.jobId env.timestamp
        fileName := env.fileName
        extractedText := extractedText
        chunks := chunks
        embeddings := embs
        extractionSuccess := extractionSuccess
        files :=
          [("original.pdf").toList, ("extracted_text.txt").toList,
            ("chunks.json").toList]
          ++ (if embs.length > 0 then [("chunks_with_embeddings.json").toList]
              else [])
          ++ [("metadata.json").toList] }
  else
    JobOutcome.failed
      { dirName := ("error_").toList ++ sanitizeName env.fileName
          ++ '_' :: Nat.toDigits 10 env.timestamp
        jobId := env.jobId
        message := env.accessErrMsg }

/-! ## Server: listing processed PDFs -/

/-- Parsed contents of a `metadata.json`, with the optional fields the
server reads defensively (`|| fallback`, `!== false`). -/
structure StoredMeta where
  fileName : List Char
  originalName : Option (List Char)
  savedAt : Nat
  fileSize : Nat
  textLength : Option Nat
  chunksCount : Option Nat
  embeddingsGenerated : Option Nat
  extractionSuccess : Option Bool
  deriving DecidableEq

/-- One entry of the storage directory as `fs.readdir` returns it.
`metadata` is `some m` exactly when `metadata.json` exists inside the
entry and parses as JSON, `none` when reading or parsing throws. -/
structure DirEntry where
  name : List Char
  isDir : Bool
  metadata : Option StoredMeta
  deriving DecidableEq

/-- The object `listProcessedPDFs` pushes for one surfaced document. -/
structure PDFInfo where
  id : List Char
  name : List Char
  originalName : List Char
  savedAt : Nat
  fileSize : Nat
  textLength : Nat
  chunks : Nat
  embeddings : Nat
  extractionSuccess : Bool
  deriving DecidableEq

/-- Field-by-field translation of the object literal in
`listProcessedPDFs`. -/
def mkPDFInfo (dirName : List Char) (m : StoredMeta) : PDFInfo :=
  { id := dirName
    name := m.fileName
    originalName := m.originalName.getD m.fileName
    savedAt := m.savedAt
    fileSize := m.fileSize
    textLength := m.textLength.getD 0
    chunks := m.chunksCount.getD 0
    embeddings := m.embeddingsGenerated.getD 0
    extractionSuccess := m.extractionSuccess.getD true }

/-- Descending order on `savedAt` used by
`pdfs.sort((a, b) => new Date(b.savedAt) - new Date(a.savedAt))`. -/
def savedAtGe (a b : PDFInfo) : Prop := b.savedAt ≤ a.savedAt

instance : DecidableRel savedAtGe := fun a b => Nat.decLe b.savedAt a.savedAt

instance : IsTotal PDFInfo savedAtGe :=
  ⟨fun a b => Nat.le_total b.savedAt a.savedAt⟩

instance : IsTrans PDFInfo savedAtGe :=
  ⟨fun _ _ _ hab hbc => Nat.le_trans hbc hab⟩

/-- Model of the server's `listProcessedPDFs`: keep directories whose
name does not start with `error_` and whose `metadata.json` reads and
parses, build the info object for each, and sort by `savedAt`
descending.  A failing entry is skipped silently. -/
def listProcessedPDFs (entries : List DirEntry) : List PDFInfo :=
  List.insertionSort savedAtGe
    (entries.filterMap fun e =>
      if e.isDir && !(("error_").toList.isPrefixOf e.name) then
        match e.metadata with
        | some m => some (mkPDFInfo e.name m)
        | none => none
      else none)

/-- Model of the `/recent` route: `pdfs.slice(0, 5)`. -/
def recentDocs (entries : List DirEntry) : List PDFInfo :=
  (listProcessedPDFs entries).take 5

/-- Target-document resolution of the `/chat` route: `none` models the
"no PDFs" and "PDF with ID … not found" replies. -/
def chatTarget (entries : List DirEntry) (pdfId : Option (List Char)) :
    Option PDFInfo :=
  let pdfs := listProcessedPDFs entries
  if pdfs.length = 0 then none
  else
    match pdfId with
    | some i => pdfs.find? fun p => p.id == i
    | none => pdfs.head?

/-! ## Server: text search -/

/-- Truncation performed by `getPDFContent(pdfId, maxLength)` once the
text file has been read: texts longer than `maxLength` are cut and the
literal `... (truncated)` is appended. -/
def getPDFContent (text : List Char) (maxLength : Nat) : List Char :=
  if maxLength < text.length then text.take maxLength ++ ("... (truncated)").toList
  else text

/-- One candidate document as `searchPDFs` sees it: its id, its
metadata `name`, and the contents of its `extracted_text.txt`
(`none` when reading the file throws). -/
structure StoredDoc where
  id : List Char
  name : List Char
  text : Option (List Char)
  deriving DecidableEq

/-- One element of the `results` array built by `searchPDFs`.  The
filename-match object literal carries no `pageRef` key, modelled as
`none`. -/
structure SearchResult where
  pdfId : List Char
  name : List Char
  score : Nat
  context : List Char
  pageRef : Option Nat
  matchType : List Char
  deriving DecidableEq

/-- Body of the `for (const pdf of pdfsToSearch)` loop of `searchPDFs`
for one document: skip it when `getPDFContent` returned `null` or an
empty string; otherwise push a score-100 content result when the
lowercased content contains the lowercased query, and a score-80
filename result when the lowercased name does. -/
def searchDoc (queryLower : List Char) (d : StoredDoc) : List SearchResult :=
  match d.text with
  | none => []
  | some t =>
    let content := getPDFContent t 5000
    if content.length = 0 then []
    else
      let contentLower := content.map Char.toLower
      let contentRes :=
        match idxOfSub contentLower queryLower with
        | none => []
        | some index =>
          let contextStart := index - 150
          let contextEnd := min content.length (index + queryLower.length + 150)
          let context := (content.drop contextStart).take (contextEnd - contextStart)
          [{ pdfId := d.id
             name := d.name
             score := 100
             context := ("...").toList ++ context ++ ("...").toList
             pageRef := extractPageNumberFromContext context
             matchType := ("text_search").toList }]
      let nameRes :=
        if containsSub (d.name.map Char.toLower) queryLower then
          [{ pdfId := d.id
             name := d.name
             score := 80
             context := ("Filename matches: ").toList ++ d.name
             pageRef := none
             matchType := ("filename").toList }]
        else []
      contentRes ++ nameRes

/-- The `pdfsToSearch` selection of `searchPDFs`. -/
def searchCandidates (docs : List StoredDoc) (pdfId : Option (List Char)) :
    List StoredDoc :=
  match pdfId with
  | some i => docs.filter fun d => d.id == i
  | none => docs

/-- Descending order on `score` used by
`results.sort((a, b) => b.score - a.score)`. -/
def scoreGe (a b : SearchResult) : Prop := b.score ≤ a.score

instance : DecidableRel scoreGe := fun a b => Nat.decLe b.score a.score

instance : IsTotal SearchResult scoreGe :=
  ⟨fun a b => Nat.le_total b.score a.score⟩

instance : IsTrans SearchResult scoreGe :=
  ⟨fun _ _ _ hab hbc => Nat.le_trans hbc hab⟩

/-- Model of the server's `searchPDFs`: lowercase the query once, search
every candidate document, and sort the merged results by score
descending. -/
def searchPDFs (query : List Char) (docs : List StoredDoc)
    (pdfId : Option (List Char)) : List SearchResult :=
  List.insertionSort scoreGe
    ((searchCandidates docs pdfId).flatMap (searchDoc (query.map Char.toLower)))

/-- The `/search` route end to end: candidate documents come from
`listProcessedPDFs`, and each document's text is read from its directory
(`readText` is the filesystem oracle keyed by document id). -/
def searchEndpoint (entries : List DirEntry)
    (readText : List Char → Option (List Char)) (query : List Char)
    (pdfId : Option (List Char)) : List SearchResult :=
  searchPDFs query
    ((listProcessedPDFs entries).map fun p =>
      { id := p.id, name := p.name, text := readText p.id })
    pdfId

/-! ## Spec-side definitions

These follow the words of the specification (and of the amended claims)
rather than the structure of the source, and are compared with the
source-side definitions in the claim theorems. -/

/-- Fallback extraction as §4.1 of the spec words it: scan the first
`min(10000, length)` bytes as text, discard lines that are empty after
trimming or contain a `%PDF` or `xref` token, keep at most 50 of the
remaining lines joined by newlines, and emit them behind the degraded
marker exactly when the remainder exceeds 100 characters. -/
def fallbackSpec (fileBuffer : List Char) : Option (List Char) :=
  let decoded := fileBuffer.take (min 10000 fileBuffer.length)
  let kept := (splitNl decoded).filter fun line =>
    decide (trim line ≠ [] ∧ ¬ (("%PDF").toList <:+: line)
      ∧ ¬ (("xref").toList <:+: line))
  let joined := List.intercalate ['\n'] (kept.take 50)
  if 100 < joined.length then some (fallbackMark ++ joined) else none

/-- Least index at which `needle` occurs in `hay`, phrased as a search
over all candidate positions. -/
def firstIdx (hay needle : List Char) : Option Nat :=
  (List.range (hay.length + 1)).find? fun i => needle.isPrefixOf (hay.drop i)

/-- Per-document search results as the amended claim C8 words them: on a
readable non-empty fetch (the first 5000 characters of the text plus a
literal `... (truncated)` suffix when it was cut), a content match emits
score 100 with the window of up to 150 characters on each side of the
first occurrence — wrapped in leading and trailing `...` — and a page
reference parsed from the unwrapped window; a filename match emits score
80 with no page reference. -/
def searchDocSpec (query : List Char) (d : StoredDoc) : List SearchResult :=
  match d.text with
  | none => []
  | some t =>
    let fetched :=
      if 5000 < t.length then t.take 5000 ++ ("... (truncated)").toList else t
    if fetched = [] then []
    else
      let ql := query.map Char.toLower
      let contentRes :=
        match firstIdx (fetched.map Char.toLower) ql with
        | none => []
        | some idx =>
          let lo := (max 0 ((idx : Int) - 150)).toNat
          let hi := min fetched.length (idx + ql.length + 150)
          let window := (fetched.take hi).drop lo
          [{ pdfId := d.id
             name := d.name
             score := 100
             context := ("...").toList ++ window ++ ("...").toList
             pageRef := extractPageNumberFromContext window
             matchType := ("text_search").toList }]
      let nameRes :=
        if ql <:+: d.name.map Char.toLower then
          [{ pdfId := d.id
             name := d.name
             score := 80
             context := ("Filename matches: ").toList ++ d.name
             pageRef := none
             matchType := ("filename").toList }]
        else []
      contentRes ++ nameRes

/-! ## Helper lemmas: trim -/

theorem dropWhile_cons_head {p : Char → Bool} :
    ∀ {l : List Char} {c : Char} {rest : List Char},
      l.dropWhile p = c :: rest → p c = false := by
  intro l
  induction l with
  | nil => intro c rest h; simp [List.dropWhile] at h
  | cons a l ih =>
    intro c rest h
    by_cases hp : p a
    · rw [List.dropWhile_cons_of_pos hp] at h
      exact ih h
    · rw [List.dropWhile_cons_of_neg hp] at h
      cases h
      simpa using hp

theorem trimRight_isPre (l : List Char) : ∃ t, l = trimRight l ++ t := by
  obtain ⟨s, hs⟩ := List.dropWhile_suffix (l := l.reverse) Char.isWhitespace
  refine ⟨s.reverse, ?_⟩
  unfold trimRight
  calc l = l.reverse.reverse := by simp
    _ = (s ++ l.reverse.dropWhile Char.isWhitespace).reverse := by rw [hs]
    _ = (l.reverse.dropWhile Char.isWhitespace).reverse ++ s.reverse := by
        simp

theorem trim_head_not_ws {l : List Char} {c : Char} {rest : List Char}
    (h : trim l = c :: rest) : c.isWhitespace = false := by
  unfold trim at h
  obtain ⟨t, ht⟩ := trimRight_isPre (trimLeft l)
  rw [h] at ht
  unfold trimLeft at ht
  rw [List.cons_append] at ht
  exact dropWhile_cons_head ht

theorem trim_eq_nil_ws {l : List Char} (h : trim l = []) :
    ∀ c ∈ l, c.isWhitespace = true := by
  unfold trim trimRight at h
  have h2 : (trimLeft l).reverse.dropWhile Char.isWhitespace = [] := by
    have := congrArg List.reverse h
    simpa using this
  have h3 : ∀ c ∈ (trimLeft l).reverse, c.isWhitespace = true := fun c hc =>
    List.dropWhile_eq_nil_iff.mp h2 c hc
  intro c hc
  rcases (by
      have h4 := List.takeWhile_append_dropWhile (p := Char.isWhitespace) (l := l)
      rw [← h4] at hc
      exact List.mem_append.mp hc) with hc1 | hc2
  · exact List.mem_takeWhile_imp hc1
  · exact h3 c (List.mem_reverse.mpr hc2)

theorem trim_ne_nil_of_not_ws {l : List Char} {c : Char} (hc : c ∈ l)
    (hw : c.isWhitespace = false) : trim l ≠ [] := by
  intro h
  rw [trim_eq_nil_ws h c hc] at hw
  exact Bool.noConfusion hw

theorem dropWhile_eq_self_of_not {p : Char → Bool} {l : List Char}
    (h : ∀ c ∈ l, p c = false) : l.dropWhile p = l := by
  cases l with
  | nil => rfl
  | cons a l =>
    rw [List.dropWhile_cons_of_neg (by simp [h a (List.mem_cons_self a l)])]

theorem trim_eq_self_of_not_ws {l : List Char}
    (h : ∀ c ∈ l, c.isWhitespace = false) : trim l = l := by
  unfold trim trimLeft trimRight
  rw [dropWhile_eq_self_of_not h,
    dropWhile_eq_self_of_not (fun c hc => h c (List.mem_reverse.mp hc)),
    List.reverse_reverse]

/-! ## Helper lemmas: substring search -/

theorem infix_of_pre {l₁ l₂ : List Char} (h : l₁ <+: l₂) : l₁ <:+: l₂ := by
  obtain ⟨t, ht⟩ := h
  exact ⟨[], t, by simpa using ht⟩

theorem idxOfSub_isSome_iff (hay needle : List Char) :
    (idxOfSub hay needle).isSome = true ↔ needle <:+: hay := by
  induction hay with
  | nil =>
    simp only [idxOfSub]
    by_cases h : needle.isPrefixOf ([] : List Char)
    · simp [h, infix_of_pre (List.isPrefixOf_iff_prefix.mp h)]
    · rw [if_neg h]
      constructor
      · intro hs; simp at hs
      · rintro ⟨s, t, hst⟩
        have h2 : needle = [] := by
          rcases List.append_eq_nil.mp hst with ⟨hl, -⟩
          exact (List.append_eq_nil.mp hl).2
        exact absurd (by rw [h2]; rfl : needle.isPrefixOf ([] : List Char) = true) h
  | cons c rest ih =>
    simp only [idxOfSub]
    by_cases h : needle.isPrefixOf (c :: rest)
    · simp [h, infix_of_pre (List.isPrefixOf_iff_prefix.mp h)]
    · rw [if_neg h, Option.isSome_map', ih, List.infix_cons_iff]
      constructor
      · exact Or.inr
      · rintro (hp | hi)
        · exact absurd (List.isPrefixOf_iff_prefix.mpr hp) (by simp [h])
        · exact hi

theorem idxOfSub_eq_firstIdx (hay needle : List Char) :
    idxOfSub hay needle = firstIdx hay needle := by
  induction hay with
  | nil =>
    simp only [idxOfSub, firstIdx, List.drop_nil, List.length_nil,
      List.range_succ, List.range_zero, List.nil_append]
    by_cases h : needle.isPrefixOf ([] : List Char)
    · rw [if_pos h, List.find?_cons_of_pos _ (by simpa using h)]
    · rw [if_neg h, List.find?_cons_of_neg _ (by simpa using h), List.find?_nil]
  | cons c rest ih =>
    simp only [idxOfSub, firstIdx]
    rw [List.length_cons, List.range_succ_eq_map, List.find?_cons]
    by_cases h : needle.isPrefixOf (c :: rest)
    · simp [h]
    · rw [Bool.not_eq_true] at h
      simp only [List.drop_zero, h]
      rw [List.find?_map, ih, firstIdx]
      have hfun : ((fun i => needle.isPrefixOf (List.drop i (c :: rest))) ∘ Nat.succ)
          = fun i => needle.isPrefixOf (List.drop i rest) := by
        funext i; rfl
      rw [hfun]
      rfl

theorem idxOfSub_le_length {hay needle : List Char} {i : Nat}
    (h : idxOfSub hay needle = some i) : i ≤ hay.length := by
  induction hay generalizing i with
  | nil =>
    simp only [idxOfSub] at h
    by_cases hp : needle.isPrefixOf ([] : List Char)
    · rw [if_pos hp] at h; cases h; simp
    · rw [if_neg hp] at h; cases h
  | cons c rest ih =>
    simp only [idxOfSub] at h
    by_cases hp : needle.isPrefixOf (c :: rest)
    · rw [if_pos hp] at h; cases h; simp
    · rw [if_neg hp] at h
      rcases Option.map_eq_some'.mp h with ⟨j, hj, rfl⟩
      have := ih hj
      simp only [List.length_cons]
      omega

/-! ## Helper lemmas: chunker -/

theorem chunkLoop_length_of_push (text : List Char) :
    ∀ (idxs : List Nat) (cnt : Nat), cnt < 50 →
      (∀ i ∈ idxs, 0 < (trim ((text.drop i).take chunkSize)).length) →
      (chunkLoop text idxs cnt).length = min idxs.length (50 - cnt) := by
  intro idxs
  induction idxs with
  | nil => intro cnt h1 h2; simp [chunkLoop]
  | cons i rest ih =>
    intro cnt h1 h2
    have hpush := h2 i (List.mem_cons_self i rest)
    simp only [chunkLoop, if_pos hpush]
    by_cases hc : 50 ≤ cnt + 1
    · rw [if_pos hc]
      have : 50 - cnt = 1 := by omega
      simp [this]
    · rw [if_neg hc]
      have hrec := ih (cnt + 1) (by omega)
        (fun j hj => h2 j (List.mem_cons_of_mem i hj))
      simp only [List.length_cons, hrec]
      omega

theorem chunkLoop_fst_sublist (text : List Char) :
    ∀ (idxs : List Nat) (cnt : Nat),
      ((chunkLoop text idxs cnt).map Prod.fst).Sublist idxs := by
  intro idxs
  induction idxs with
  | nil => intro cnt; simp [chunkLoop]
  | cons i rest ih =>
    intro cnt
    simp only [chunkLoop]
    by_cases hpush : 0 < (trim ((text.drop i).take chunkSize)).length
    · rw [if_pos hpush]
      by_cases hc : 50 ≤ cnt + 1
      · rw [if_pos hc]
        simp only [List.map_cons, List.map_nil]
        exact List.Sublist.cons₂ i (List.nil_sublist rest)
      · rw [if_neg hc]
        simpa using List.Sublist.cons₂ i (ih (cnt + 1))
    · rw [if_neg hpush]
      by_cases hc : 50 ≤ cnt
      · rw [if_pos hc]; exact List.nil_sublist _
      · rw [if_neg hc]
        exact List.Sublist.cons i (ih cnt)

theorem pairwise_lt_range_step (s n step : Nat) (hstep : 0 < step) :
    (List.range' s n step).Pairwise (· < ·) := by
  induction n generalizing s with
  | zero => simp
  | succ n ih =>
    rw [List.range'_succ]
    refine List.Pairwise.cons ?_ (ih (s + step))
    intro m hm
    rcases List.mem_range'.mp hm with ⟨j, hj, rfl⟩
    omega

theorem mem_range_chunk_lt {len i : Nat}
    (hi : i ∈ List.range' 0 (chunkIter len) (chunkSize - overlap)) : i < len := by
  rcases List.mem_range'.mp hi with ⟨j, hj, rfl⟩
  simp only [chunkIter, chunkSize, overlap] at hj ⊢
  omega

theorem chunkIter_eq (len : Nat) :
    chunkIter len = (len + (chunkSize - overlap) - 1) / (chunkSize - overlap) := rfl

/-! ## Claim C1 -/

set_option maxRecDepth 10000 in
/-- Claim C1 as stated is false at a concrete input: for the
1601-character whitespace-free text the chunker produces 3 chunks, while
the claimed count `min(⌈(L - overlap) / (windowSize - overlap)⌉, 50)`
gives 2.  The loop visits start offsets 0, 800 and 1600, i.e.
`⌈L / (windowSize - overlap)⌉` of them. -/
theorem C1_counterexample :
    ¬ ((chunkText (List.replicate 1601 'a')).length
        = min (((List.replicate 1601 'a' : List Char).length - overlap
            + (chunkSize - overlap) - 1) / (chunkSize - overlap)) 50) := by
  decide

/-- Claim C1, amended: for every extracted text of length L strictly
greater than the window size (1000) all of whose characters are
non-whitespace (so every window survives the trim filter), the chunker
produces exactly `min(⌈L / (windowSize - overlap)⌉, 50)` chunks — with
`⌈L / (windowSize - overlap)⌉`, not `⌈(L - overlap) / (windowSize -
overlap)⌉` — and the source start offsets of successive chunks strictly
increase. -/
theorem C1_amended (text : List Char) (hlen : chunkSize < text.length)
    (hws : ∀ c ∈ text, c.isWhitespace = false) :
    (chunkText text).length
        = min ((text.length + (chunkSize - overlap) - 1) / (chunkSize - overlap)) 50
      ∧ ((chunkText text).map Prod.fst).Pairwise (· < ·) := by
  have hpush : ∀ i ∈ List.range' 0 (chunkIter text.length) (chunkSize - overlap),
      0 < (trim ((text.drop i).take chunkSize)).length := by
    intro i hi
    have hilt : i < text.length := mem_range_chunk_lt hi
    have hne : (text.drop i).take chunkSize ≠ [] := by
      simp only [ne_eq, List.take_eq_nil_iff]
      push_neg
      constructor
      · simp [chunkSize]
      · simp only [ne_eq, List.drop_eq_nil_iff]
        omega
    have hsub : ∀ c ∈ (text.drop i).take chunkSize, c.isWhitespace = false :=
      fun c hc => hws c (List.mem_of_mem_drop (List.mem_of_mem_take hc))
    rw [trim_eq_self_of_not_ws hsub]
    exact List.length_pos.mpr hne
  constructor
  · unfold chunkText
    rw [if_pos hlen,
      chunkLoop_length_of_push text _ 0 (by omega) hpush,
      List.length_range']
    rfl
  · unfold chunkText
    rw [if_pos hlen]
    exact List.Pairwise.sublist (chunkLoop_fst_sublist text _ 0)
      (pairwise_lt_range_step 0 (chunkIter text.length) (chunkSize - overlap)
        (by simp [chunkSize, overlap]))

set_option maxRecDepth 10000 in
/-- Witness for C1: the amended statement instantiated at the concrete
1601-character text, where the chunker produces `min(⌈1601/800⌉, 50) = 3`
chunks with offsets 0, 800, 1600. -/
theorem C1_amended_witness :
    (chunkText (List.replicate 1601 'a')).length
        = min (((List.replicate 1601 'a' : List Char).length
            + (chunkSize - overlap) - 1) / (chunkSize - overlap)) 50
      ∧ ((chunkText (List.replicate 1601 'a')).map Prod.fst).Pairwise (· < ·) :=
  C1_amended (List.replicate 1601 'a') (by decide)
    (fun c hc => by rw [List.eq_of_mem_replicate hc]; rfl)

/-! ## Claim C2 -/

/-- Claim C2 as stated is false at a concrete input: for the
two-character text of a space followed by `a` (length ≤ 1000), the
single chunk is the raw input, not the trimmed input. -/
theorem C2_counterexample :
    ¬ ((chunkText ((" a").toList)).map Prod.snd = [trim ((" a").toList)]) := by
  decide

/-- Claim C2, amended: for every extracted text of length at most the
window size (1000), the chunker produces exactly one chunk, and that
chunk equals the input text unchanged (the code pushes the text without
trimming; this coincides with the trimmed input exactly when the input
is already trimmed, as successful extraction output always is). -/
theorem C2_amended (text : List Char) (hlen : text.length ≤ chunkSize) :
    (chunkText text).map Prod.snd = [text] := by
  unfold chunkText
  rw [if_neg (by omega)]
  rfl

/-- Witness for C2: the amended statement at a concrete short text. -/
theorem C2_amended_witness :
    (chunkText (("hi").toList)).map Prod.snd = [("hi").toList] :=
  C2_amended (("hi").toList) (by decide)

/-! ## Helper lemmas: extraction output shape -/

theorem pdfFallback_head {buf t : List Char} (h : pdfFallback buf = some t) :
    ∃ rest, t = '[' :: rest := by
  simp only [pdfFallback] at h
  split at h
  · injection h with h
    exact ⟨_, h.symm⟩
  · cases h

theorem extractPDFText_head {buf : List Char} {lib : Option (List Char)}
    {t : List Char} (h : extractPDFText buf lib = some t) :
    ∃ c rest, t = c :: rest ∧ c.isWhitespace = false := by
  match lib with
  | none =>
    obtain ⟨rest, hr⟩ := pdfFallback_head h
    exact ⟨'[', rest, hr, rfl⟩
  | some fullText =>
    simp only [extractPDFText] at h
    split at h
    · obtain ⟨rest, hr⟩ := pdfFallback_head h
      exact ⟨'[', rest, hr, rfl⟩
    next hlen =>
      injection h with h
      subst h
      cases hts : trim fullText with
      | nil => rw [hts] at hlen; simp at hlen
      | cons c rest => exact ⟨c, rest, rfl, trim_head_not_ws hts⟩

theorem placeholderText_head (fileName : List Char) :
    ∃ rest, placeholderText fileName = 'P' :: rest :=
  ⟨_, rfl⟩

theorem chunkText_cons_ne_nil {t : List Char} {c : Char} {rest : List Char}
    (ht : t = c :: rest) (hc : c.isWhitespace = false) :
    (chunkText t).map Prod.snd ≠ [] := by
  unfold chunkText
  by_cases hlen : chunkSize < t.length
  · rw [if_pos hlen]
    obtain ⟨m, hm⟩ : ∃ m, chunkIter t.length = m + 1 := by
      refine ⟨chunkIter t.length - 1, ?_⟩
      have h0 : 0 < chunkIter t.length := by
        simp only [chunkIter, chunkSize, overlap] at hlen ⊢
        omega
      omega
    rw [hm, List.range'_succ]
    simp only [chunkLoop]
    have hw : 0 < (trim ((t.drop 0).take chunkSize)).length := by
      rw [List.drop_zero]
      have htake : (c :: rest).take chunkSize = c :: rest.take (chunkSize - 1) := rfl
      have hmem : c ∈ t.take chunkSize := by
        rw [ht, htake]
        exact List.mem_cons_self c _
      exact List.length_pos.mpr (trim_ne_nil_of_not_ws hmem hc)
    rw [if_pos hw, if_neg (by omega)]
    simp
  · rw [if_neg hlen]
    simp

/-! ## Claim C9 -/

/-- Claim C9: for every ingestion job, whenever the extracted text of the
completed record (full, degraded-fallback, or placeholder) is non-empty,
the chunk list the record persists is non-empty.  Every text the
pipeline can produce starts with a non-whitespace character (trimmed
extraction output, the `[`-marker of the fallback, or the `P` of the
placeholder), so the first window always survives the trim filter. -/
theorem C9_nonempty_chunks (env : WorkerEnv) (rec : DocRecord)
    (h : processJob env = JobOutcome.completed rec)
    (hne : rec.extractedText ≠ []) : rec.chunks ≠ [] := by
  unfold processJob at h
  by_cases hex : env.fileExists
  · rw [if_pos hex] at h
    injection h with h
    subst h
    show (chunkText _).map Prod.snd ≠ []
    cases hext : extractPDFText env.fileBuffer env.libExtract with
    | some t =>
      obtain ⟨c, rest, hcr, hcw⟩ := extractPDFText_head hext
      simp only [hext]
      exact chunkText_cons_ne_nil hcr hcw
    | none =>
      obtain ⟨rest, hpr⟩ := placeholderText_head env.fileName
      simp only [hext]
      exact chunkText_cons_ne_nil hpr rfl
  · rw [if_neg hex] at h
    cases h

/-! ## Helper lemmas: embedding loop -/

theorem genEmbList_att (embed : List Char → Option (List Int)) (jobId : Nat)
    (chunks : List (List Char)) :
    ∀ (idxs : List Nat), ∀ p ∈ (genEmbList embed jobId chunks idxs).2,
      p.1 ∈ idxs ∧ chunks.get? p.1 = some p.2 ∧ 20 ≤ p.2.length := by
  intro idxs
  induction idxs with
  | nil => intro p hp; simp [genEmbList] at hp
  | cons i rest ih =>
    intro p hp
    simp only [genEmbList] at hp
    cases hg : chunks.get? i with
    | none =>
      simp only [hg] at hp
      obtain ⟨h1, h2, h3⟩ := ih p hp
      exact ⟨List.mem_cons_of_mem i h1, h2, h3⟩
    | some chunk =>
      simp only [hg] at hp
      by_cases hlen : chunk.length < 20
      · rw [if_pos hlen] at hp
        obtain ⟨h1, h2, h3⟩ := ih p hp
        exact ⟨List.mem_cons_of_mem i h1, h2, h3⟩
      · rw [if_neg hlen] at hp
        cases he : embed chunk with
        | none =>
          simp only [he] at hp
          rcases List.mem_cons.mp hp with rfl | hp2
          · exact ⟨List.mem_cons_self i rest, hg, by show 20 ≤ chunk.length; omega⟩
          · obtain ⟨h1, h2, h3⟩ := ih p hp2
            exact ⟨List.mem_cons_of_mem i h1, h2, h3⟩
        | some v =>
          simp only [he] at hp
          rcases List.mem_cons.mp hp with rfl | hp2
          · exact ⟨List.mem_cons_self i rest, hg, by show 20 ≤ chunk.length; omega⟩
          · obtain ⟨h1, h2, h3⟩ := ih p hp2
            exact ⟨List.mem_cons_of_mem i h1, h2, h3⟩

theorem genEmbList_res_nil (embed : List Char → Option (List Int)) (jobId : Nat)
    (chunks : List (List Char)) :
    ∀ (idxs : List Nat),
      (∀ p ∈ (genEmbList embed jobId chunks idxs).2, embed p.2 = none) →
      (genEmbList embed jobId chunks idxs).1 = [] := by
  intro idxs
  induction idxs with
  | nil => intro h; simp [genEmbList]
  | cons i rest ih =>
    intro h
    simp only [genEmbList] at h ⊢
    cases hg : chunks.get? i with
    | none =>
      simp only [hg] at h ⊢
      exact ih h
    | some chunk =>
      simp only [hg] at h ⊢
      by_cases hlen : chunk.length < 20
      · rw [if_pos hlen] at h ⊢
        exact ih h
      · rw [if_neg hlen] at h ⊢
        cases he : embed chunk with
        | none =>
          simp only [he] at h ⊢
          exact ih fun p hp => h p (List.mem_cons_of_mem _ hp)
        | some v =>
          exact absurd (h (i, chunk) (by simp [he])) (by simp [he])

/-! ## Claim C4 -/

/-- Claim C4: the embedding loop attempts an external call only for
chunks among the first `min(10, chunkCount)` and only for chunks of
length at least 20; when every attempted call fails the embedding list
is empty, and a job whose embedding calls all fail still completes with
a persisted document record (and an empty embedding list). -/
theorem C4_embedding :
    (∀ (embed : List Char → Option (List Int)) (jobId : Nat)
        (chunks : List (List Char)),
      ∀ p ∈ (generateEmbeddings embed jobId chunks).2,
        p.1 < min 10 chunks.length ∧ chunks.get? p.1 = some p.2
          ∧ 20 ≤ p.2.length)
    ∧ (∀ (embed : List Char → Option (List Int)) (jobId : Nat)
        (chunks : List (List Char)),
      (∀ p ∈ (generateEmbeddings embed jobId chunks).2, embed p.2 = none) →
        (generateEmbeddings embed jobId chunks).1 = [])
    ∧ ∀ env : WorkerEnv, env.fileExists = true →
        (∀ c, env.embed c = none) →
        ∃ rec, processJob env = JobOutcome.completed rec
          ∧ rec.embeddings = [] := by
  refine ⟨?_, ?_, ?_⟩
  · intro embed jobId chunks p hp
    obtain ⟨h1, h2, h3⟩ := genEmbList_att embed jobId chunks _ p hp
    exact ⟨Nat.min_comm chunks.length 10 ▸ List.mem_range.mp h1, h2, h3⟩
  · intro embed jobId chunks h
    exact genEmbList_res_nil embed jobId chunks _ h
  · intro env h1 hall
    unfold processJob
    rw [h1]
    simp only [if_true]
    refine ⟨_, rfl, ?_⟩
    exact genEmbList_res_nil env.embed env.jobId _ _ fun p _ => hall p.2

/-- A concrete environment whose embedding calls all fail: the text is
long enough that the first chunk is attempted. -/
def envC4 : WorkerEnv :=
  { fileExists := true
    fileBuffer := []
    libExtract := some (List.replicate 30 'x')
    embed := fun _ => none
    fileName := ("c.pdf").toList
    jobId := 4
    timestamp := 5
    accessErrMsg := [] }

/-- Witness for C4: the pipeline conclusion instantiated at `envC4`. -/
theorem C4_witness :
    ∃ rec, processJob envC4 = JobOutcome.completed rec
      ∧ rec.embeddings = [] :=
  C4_embedding.2.2 envC4 rfl fun _ => rfl

/-! ## Claim C6 -/

/-- Claim C6: an ingestion job whose source file path does not exist
writes an error record — a directory with the distinguished `error_`
name prefix containing the error message and the job id — then rethrows
(the `failed` outcome), and it never produces a completed document
record. -/
theorem C6_fatal (env : WorkerEnv) (h : env.fileExists = false) :
    ∃ er, processJob env = JobOutcome.failed er
      ∧ (("error_").toList).isPrefixOf er.dirName = true
      ∧ er.jobId = env.jobId
      ∧ er.message = env.accessErrMsg
      ∧ ∀ rec, processJob env ≠ JobOutcome.completed rec := by
  have hp : processJob env = JobOutcome.failed
      { dirName := ("error_").toList ++ sanitizeName env.fileName
          ++ '_' :: Nat.toDigits 10 env.timestamp
        jobId := env.jobId
        message := env.accessErrMsg } := by
    unfold processJob
    rw [h]
    rfl
  refine ⟨_, hp, ?_, rfl, rfl, ?_⟩
  · rw [ List.isPrefixOf_iff_prefix, List.append_assoc]
    exact List.prefix_append _ _
  · intro rec hcon
    rw [hp] at hcon
    cases hcon

/-- A concrete environment whose source file is missing. -/
def envC6 : WorkerEnv :=
  { fileExists := false
    fileBuffer := []
    libExtract := none
    embed := fun _ => none
    fileName := ("b.pdf").toList
    jobId := 7
    timestamp := 3
    accessErrMsg := ("ENOENT: no such file or directory").toList }

/-- Witness for C6: the statement instantiated at `envC6`. -/
theorem C6_witness :
    ∃ er, processJob envC6 = JobOutcome.failed er
      ∧ (("error_").toList).isPrefixOf er.dirName = true
      ∧ er.jobId = envC6.jobId
      ∧ er.message = envC6.accessErrMsg
      ∧ ∀ rec, processJob envC6 ≠ JobOutcome.completed rec :=
  C6_fatal envC6 rfl

/-! ## Claim C7 -/

/-- Claim C7: a job whose source file is readable but whose PDF text
extraction throws (including a failed fallback) still completes and
persists a normal document record whose metadata has
`extractionSuccess = false` and whose extracted text is the non-empty
placeholder string. -/
theorem C7_placeholder (env : WorkerEnv) (h1 : env.fileExists = true)
    (h2 : extractPDFText env.fileBuffer env.libExtract = none) :
    ∃ rec, processJob env = JobOutcome.completed rec
      ∧ rec.extractionSuccess = false
      ∧ rec.extractedText = placeholderText env.fileName
      ∧ rec.extractedText ≠ [] := by
  unfold processJob
  rw [h1]
  simp only [if_true, h2]
  refine ⟨_, rfl, rfl, rfl, ?_⟩
  show placeholderText env.fileName ≠ []
  obtain ⟨rest, hr⟩ := placeholderText_head env.fileName
  rw [hr]
  simp

/-- A concrete environment where the library throws and the buffer is
empty, so the fallback fails as well. -/
def envC7 : WorkerEnv :=
  { fileExists := true
    fileBuffer := []
    libExtract := none
    embed := fun _ => none
    fileName := ("d.pdf").toList
    jobId := 9
    timestamp := 6
    accessErrMsg := [] }

/-- Witness for C7: the statement instantiated at `envC7`. -/
theorem C7_witness :
    ∃ rec, processJob envC7 = JobOutcome.completed rec
      ∧ rec.extractionSuccess = false
      ∧ rec.extractedText = placeholderText envC7.fileName
      ∧ rec.extractedText ≠ [] :=
  C7_placeholder envC7 rfl rfl

/-- Projection of a completed outcome to its record, used by the
witnesses. -/
def recOf : JobOutcome → DocRecord
  | JobOutcome.completed rec => rec
  | JobOutcome.failed _ =>
    { id := []
      fileName := []
      extractedText := []
      chunks := []
      embeddings := []
      extractionSuccess := false
      files := [] }

/-- A concrete environment whose extraction succeeds with a short
text. -/
def envC9 : WorkerEnv :=
  { fileExists := true
    fileBuffer := []
    libExtract := some (("hello world").toList)
    embed := fun _ => none
    fileName := ("a.pdf").toList
    jobId := 1
    timestamp := 2
    accessErrMsg := [] }

/-- Witness for C9: the non-empty chunk list of the record produced at
`envC9`, whose extracted text is non-empty. -/
theorem C9_witness : (recOf (processJob envC9)).chunks ≠ [] :=
  C9_nonempty_chunks envC9 (recOf (processJob envC9)) rfl (by decide)

/-! ## Claim C5 -/

theorem containsSub_eq_decide (hay nd : List Char) :
    containsSub hay nd = decide (nd <:+: hay) := by
  rw [Bool.eq_iff_iff]
  simp only [containsSub, decide_eq_true_eq]
  exact idxOfSub_isSome_iff hay nd

theorem fallback_pred_eq (line : List Char) :
    (0 < (trim line).length && !containsSub line (("%PDF").toList)
        && !containsSub line (("xref").toList))
      = decide (trim line ≠ [] ∧ ¬ (("%PDF").toList <:+: line)
        ∧ ¬ (("xref").toList <:+: line)) := by
  rw [Bool.eq_iff_iff]
  simp only [Bool.and_eq_true, decide_eq_true_eq, Bool.not_eq_true',
    containsSub_eq_decide, decide_eq_false_iff_not, List.length_pos, ne_eq]
  tauto

/-- Claim C5: when library-level extraction throws, `extractPDFText`
behaves exactly as the spec's fallback policy describes — decode the
first `min(10000, length)` bytes, discard empty-after-trim lines and
lines containing `%PDF` or `xref`, keep at most the first 50 remaining
lines joined by newlines, and return them behind the degraded marker iff
their joined length exceeds 100 — and when the fallback fails too, the
job handler substitutes the placeholder text. -/
theorem C5_fallback :
    (∀ buf : List Char, extractPDFText buf none = fallbackSpec buf)
    ∧ ∀ env : WorkerEnv, env.fileExists = true → env.libExtract = none →
        fallbackSpec env.fileBuffer = none →
        ∃ rec, processJob env = JobOutcome.completed rec
          ∧ rec.extractedText = placeholderText env.fileName := by
  have hfb : ∀ buf, pdfFallback buf = fallbackSpec buf := by
    intro buf
    simp only [pdfFallback, fallbackSpec]
    rw [List.filter_congr fun a _ => fallback_pred_eq a]
  refine ⟨fun buf => hfb buf, ?_⟩
  intro env h1 hlib hspec
  have hext : extractPDFText env.fileBuffer env.libExtract = none := by
    rw [hlib]
    show pdfFallback env.fileBuffer = none
    rw [hfb]
    exact hspec
  unfold processJob
  rw [h1]
  simp only [if_true, hext]
  exact ⟨_, rfl, rfl⟩

/-- A concrete environment whose library extraction throws over an empty
buffer, so the fallback yields nothing. -/
def envC5 : WorkerEnv :=
  { fileExists := true
    fileBuffer := []
    libExtract := none
    embed := fun _ => none
    fileName := ("e.pdf").toList
    jobId := 11
    timestamp := 8
    accessErrMsg := [] }

/-- Witness for C5: both conjuncts instantiated at concrete inputs. -/
theorem C5_witness :
    (extractPDFText (("abc").toList) none = fallbackSpec (("abc").toList))
    ∧ ∃ rec, processJob envC5 = JobOutcome.completed rec
        ∧ rec.extractedText = placeholderText envC5.fileName :=
  ⟨C5_fallback.1 (("abc").toList), C5_fallback.2 envC5 rfl rfl (by decide)⟩

/-! ## Claim C3 -/

/-- Claim C3 as stated is false at a concrete input: the document's
filename contains the query case-insensitively, yet because its text
content could not be read (`getPDFContent` returned null) the loop
`continue`s before the filename check, so no score-80 result — indeed no
result at all — is produced. -/
theorem C3_counterexample :
    containsSub ((("report").toList).map Char.toLower)
        ((("rep").toList).map Char.toLower) = true
      ∧ searchPDFs (("rep").toList)
          [{ id := ("d1").toList, name := ("report").toList, text := none }]
          none = [] := by
  decide

/-- Claim C3, amended: for every searched document whose text content
was readable and non-empty, a case-insensitive substring match of the
query against the document's filename yields a result with score 80 and
no page reference, regardless of whether the content matched; a document
whose text could not be read at all (or read back empty) is skipped
entirely, filename check included. -/
theorem C3_amended (query : List Char) (docs : List StoredDoc)
    (d : StoredDoc) (t : List Char) (hd : d ∈ docs) (ht : d.text = some t)
    (hne : t ≠ [])
    (hname : containsSub (d.name.map Char.toLower) (query.map Char.toLower)
      = true) :
    ∃ r ∈ searchPDFs query docs none, r.pdfId = d.id ∧ r.score = 80
      ∧ r.pageRef = none ∧ r.matchType = ("filename").toList := by
  have hcontent : ¬ (getPDFContent t 5000).length = 0 := by
    unfold getPDFContent
    split
    · simp
    · simpa [List.length_eq_zero] using hne
  have hmem : ({ pdfId := d.id, name := d.name, score := 80,
                 context := ("Filename matches: ").toList ++ d.name,
                 pageRef := none,
                 matchType := ("filename").toList } : SearchResult)
      ∈ searchDoc (query.map Char.toLower) d := by
    simp only [searchDoc, ht]
    rw [if_neg hcontent]
    rw [if_pos hname]
    exact List.mem_append_right _ (List.mem_singleton_self _)
  refine ⟨{ pdfId := d.id, name := d.name, score := 80,
            context := ("Filename matches: ").toList ++ d.name,
            pageRef := none,
            matchType := ("filename").toList }, ?_, rfl, rfl, rfl, rfl⟩
  rw [searchPDFs]
  rw [(List.perm_insertionSort scoreGe _).mem_iff]
  exact List.mem_flatMap.mpr ⟨d, hd, hmem⟩

/-- A concrete readable document whose filename matches the query. -/
def docC3 : StoredDoc :=
  { id := ("d1").toList, name := ("report").toList, text := some (("x").toList) }

/-- Witness for C3: the amended statement at the concrete document. -/
theorem C3_amended_witness :
    ∃ r ∈ searchPDFs (("rep").toList) [docC3] none,
      r.pdfId = docC3.id ∧ r.score = 80 ∧ r.pageRef = none
        ∧ r.matchType = ("filename").toList :=
  C3_amended (("rep").toList) [docC3] docC3 (("x").toList)
    (List.mem_singleton_self _) rfl (by decide) (by decide)

/-! ## Claim C8 -/

theorem window_eq (content ql : List Char) (idx : Nat)
    (hidx : idxOfSub (content.map Char.toLower) ql = some idx) :
    (content.drop (idx - 150)).take
        (min content.length (idx + ql.length + 150) - (idx - 150))
      = (content.take (min content.length (idx + ql.length + 150))).drop
          ((max 0 ((idx : Int) - 150)).toNat) := by
  have hle : idx ≤ content.length := by
    have h := idxOfSub_le_length hidx
    rwa [List.length_map] at h
  have hlo : (max 0 ((idx : Int) - 150)).toNat = idx - 150 := by omega
  rw [hlo, List.drop_take]

set_option maxRecDepth 4000 in
theorem searchDoc_eq_spec (query : List Char) (d : StoredDoc) :
    searchDoc (query.map Char.toLower) d = searchDocSpec query d := by
  rcases hdt : d.text with - | t
  · simp only [searchDoc, searchDocSpec, hdt]
  · simp only [searchDoc, searchDocSpec, hdt, getPDFContent]
    set content :=
      if 5000 < t.length then t.take 5000 ++ ("... (truncated)").toList else t
      with hcontent
    by_cases hnil : content.length = 0
    · rw [if_pos hnil, if_pos (List.length_eq_zero.mp hnil)]
    · rw [if_neg hnil,
        if_neg (show ¬ content = [] from fun h => hnil (by rw [h]; rfl))]
      rw [idxOfSub_eq_firstIdx]
      congr 1
      · cases hidx : firstIdx (content.map Char.toLower)
            (query.map Char.toLower) with
        | none => rfl
        | some idx =>
          have hidx2 : idxOfSub (content.map Char.toLower)
              (query.map Char.toLower) = some idx := by
            rw [idxOfSub_eq_firstIdx]; exact hidx
          have hwin := window_eq content (query.map Char.toLower) idx hidx2
          simp only [hwin]
      · by_cases hn : (query.map Char.toLower) <:+: d.name.map Char.toLower
        · rw [if_pos ((containsSub_eq_decide _ _).trans (decide_eq_true hn)),
            if_pos hn]
        · rw [if_neg (fun hc => hn (of_decide_eq_true
              ((containsSub_eq_decide _ _).symm.trans hc))), if_neg hn]

/-- Claim C8 as stated is false at a concrete input: the result's
context is the ±150-character window wrapped in literal leading and
trailing `...`, not the window itself. -/
theorem C8_counterexample :
    (searchPDFs (("ell").toList)
        [{ id := ("d1").toList, name := ("x").toList,
           text := some (("hello").toList) }] none).map
        (fun r => r.context)
      = [("...hello...").toList]
    ∧ ("...hello...").toList ≠ ("hello").toList := by
  decide

/-- Claim C8, amended: text search fetches at most 5000 characters of
each document's text (appending a literal `... (truncated)` suffix when
it was cut), performs a case-insensitive substring search on that
fetched content, and on a content match emits a score-100 result whose
context is the window of up to 150 characters on each side of the first
occurrence wrapped in leading and trailing `...`, with the page
reference parsed from the first `[Page N]` marker of the unwrapped
window (null if absent); the merged results across all documents are
sorted in descending order of score. -/
theorem C8_amended (query : List Char) (docs : List StoredDoc)
    (pdfId : Option (List Char)) :
    (searchPDFs query docs pdfId).Pairwise scoreGe
    ∧ (searchPDFs query docs pdfId).Perm
        ((searchCandidates docs pdfId).flatMap (searchDocSpec query)) := by
  constructor
  · exact List.sorted_insertionSort scoreGe _
  · have hfun : (searchCandidates docs pdfId).flatMap
        (searchDoc (query.map Char.toLower))
        = (searchCandidates docs pdfId).flatMap (searchDocSpec query) :=
      congrArg _ (funext fun d => searchDoc_eq_spec query d)
    rw [searchPDFs, hfun]
    exact List.perm_insertionSort scoreGe _

/-! ## Claim C10 -/

theorem searchDoc_pdfId (ql : List Char) (d : StoredDoc) :
    ∀ r ∈ searchDoc ql d, r.pdfId = d.id := by
  intro r hr
  rcases hdt : d.text with - | t
  · simp only [searchDoc, hdt] at hr
    simp at hr
  · simp only [searchDoc, hdt] at hr
    split at hr
    · simp at hr
    · rcases List.mem_append.mp hr with h | h
      · cases hix : idxOfSub ((getPDFContent t 5000).map Char.toLower) ql with
        | none => simp only [hix] at h; simp at h
        | some idx =>
          simp only [hix, List.mem_singleton] at h
          subst h
          rfl
      · split at h
        · simp only [List.mem_singleton] at h
          subst h
          rfl
        · simp at h

/-- Claim C10: every read path (list documents, chat target resolution,
text search, recent) surfaces only documents whose storage directory
name does not start with `error_` and whose `metadata.json` exists and
parses; a directory failing either condition is skipped silently (the
read functions are total) and its name never appears among the
results. -/
theorem C10_read_paths (entries : List DirEntry)
    (readText : List Char → Option (List Char)) (query : List Char)
    (pdfId : Option (List Char)) :
    (∀ p ∈ listProcessedPDFs entries, ∃ e ∈ entries, ∃ m,
      e.isDir = true ∧ (("error_").toList.isPrefixOf e.name) = false
        ∧ e.metadata = some m ∧ p = mkPDFInfo e.name m)
    ∧ (∀ p ∈ recentDocs entries, p ∈ listProcessedPDFs entries)
    ∧ (∀ p, chatTarget entries pdfId = some p →
        p ∈ listProcessedPDFs entries)
    ∧ (∀ r ∈ searchEndpoint entries readText query pdfId,
        ∃ p ∈ listProcessedPDFs entries, r.pdfId = p.id)
    ∧ ((entries.map DirEntry.name).Nodup →
        ∀ e ∈ entries,
          (e.isDir = false ∨ (("error_").toList.isPrefixOf e.name) = true
            ∨ e.metadata = none) →
          ∀ p ∈ listProcessedPDFs entries, p.id ≠ e.name) := by
  have ha : ∀ p ∈ listProcessedPDFs entries, ∃ e ∈ entries, ∃ m,
      e.isDir = true ∧ (("error_").toList.isPrefixOf e.name) = false
        ∧ e.metadata = some m ∧ p = mkPDFInfo e.name m := by
    intro p hp
    rw [listProcessedPDFs, (List.perm_insertionSort savedAtGe _).mem_iff] at hp
    obtain ⟨e, he, hfe⟩ := List.mem_filterMap.mp hp
    refine ⟨e, he, ?_⟩
    by_cases hcond : (e.isDir && !(("error_").toList.isPrefixOf e.name)) = true
    · rw [if_pos hcond] at hfe
      rw [Bool.and_eq_true] at hcond
      obtain ⟨hdir, hnot⟩ := hcond
      cases hm : e.metadata with
      | none => rw [hm] at hfe; cases hfe
      | some m =>
        rw [hm] at hfe
        injection hfe with hfe
        exact ⟨m, hdir, by simpa using hnot, rfl, hfe.symm⟩
    · rw [if_neg hcond] at hfe
      cases hfe
  refine ⟨ha, ?_, ?_, ?_, ?_⟩
  · intro p hp
    exact List.mem_of_mem_take hp
  · intro p hp
    simp only [chatTarget] at hp
    split at hp
    · cases hp
    · split at hp
      · exact List.mem_of_find?_eq_some hp
      · exact List.mem_of_mem_head? hp
  · intro r hr
    rw [searchEndpoint, searchPDFs,
      (List.perm_insertionSort scoreGe _).mem_iff] at hr
    obtain ⟨doc, hdoc, hrd⟩ := List.mem_flatMap.mp hr
    have hdoc2 : doc ∈ (listProcessedPDFs entries).map
        (fun p => ({ id := p.id, name := p.name,
                     text := readText p.id } : StoredDoc)) := by
      cases pdfId with
      | none => exact hdoc
      | some i => exact List.mem_of_mem_filter hdoc
    obtain ⟨p, hp, hpd⟩ := List.mem_map.mp hdoc2
    refine ⟨p, hp, ?_⟩
    rw [searchDoc_pdfId _ doc r hrd, ← hpd]
  · intro hnd e he hbad p hp hid
    obtain ⟨e', he', m, hdir, hpre, hmeta, hpm⟩ := ha p hp
    have hne : e'.name = e.name := by rw [hpm] at hid; exact hid
    have heq : e' = e := List.inj_on_of_nodup_map hnd he' he hne
    subst heq
    rcases hbad with h | h | h
    · rw [hdir] at h; cases h
    · rw [hpre] at h; cases h
    · rw [hmeta] at h; cases h

/-- Concrete metadata for the C10 witness. -/
def mC10 : StoredMeta :=
  { fileName := ("doc1.pdf").toList
    originalName := none
    savedAt := 10
    fileSize := 5
    textLength := none
    chunksCount := none
    embeddingsGenerated := none
    extractionSuccess := none }

/-- A storage listing with one good directory and one `error_`
directory. -/
def entriesC10 : List DirEntry :=
  [{ name := ("doc1").toList, isDir := true, metadata := some mC10 },
   { name := ("error_x").toList, isDir := true, metadata := some mC10 }]

/-- Witness for C10: the surfaced document of the concrete listing comes
from the good directory. -/
theorem C10_witness :
    ∃ e ∈ entriesC10, ∃ m, e.isDir = true
      ∧ (("error_").toList.isPrefixOf e.name) = false
      ∧ e.metadata = some m
      ∧ mkPDFInfo (("doc1").toList) mC10 = mkPDFInfo e.name m :=
  (C10_read_paths entriesC10 (fun _ => none) [] none).1
    (mkPDFInfo (("doc1").toList) mC10) (by decide)
